import Mathlib

/-!
Verification development for the minitorrent embedded BitTorrent client core.

The development shallowly embeds the Rust sources:
  * `src/bencode/src/lib.rs` (error taxonomy) together with the bencode
    decoding engine (cursor-based parser); the engine's module
    `bencode/src/deserialize.rs` is not present in the source tree, so its
    operations are modelled from the specification, section 4.1.
  * `src/core-logic/src/core/tracker.rs` (tracker request encoding and
    compact tracker response decoding).
  * `src/core-logic/src/core/net.rs` (SimpleUrl, percent_encode,
    http_header_end_pos, make_tracker_request / make_http_request).
  * `src/core-logic/src/fs/torrent_retrieval.rs` (torrent file retrieval).

Bytes are modelled as `Nat` (with the value range 0..256 where a claim
needs it), byte buffers as `List Nat`, Rust strings as `List Char`, and
Rust panics as explicit outcome constructors.  Recursion that is unbounded
in Rust (the recursive `skip_any`, the dictionary scanning loop) is
modelled with an explicit fuel parameter; running out of fuel is `none`.
-/

namespace Minitorrent

/-- Bytes of a Lean string literal, used to write concrete byte buffers. -/
def strBytes (s : String) : List Nat := s.toList.map Char.toNat

/-- ASCII decimal digit test on a byte, as the bencode length scanner uses it. -/
def isDigitByte (b : Nat) : Bool := 48 ≤ b && b ≤ 57

/-- Greedily split a byte list into its leading run of ASCII digits and the rest. -/
def takeDigits : List Nat → List Nat × List Nat
  | [] => ([], [])
  | b :: rest =>
    if isDigitByte b then
      let p := takeDigits rest
      (b :: p.1, p.2)
    else ([], b :: rest)

/-- Decimal value of a digit run (most significant digit first). -/
def digitsToNat (ds : List Nat) : Nat := ds.foldl (fun a d => 10 * a + (d - 48)) 0

/-- Fueled decimal rendering of a natural number, most significant digit first.
The fuel `n + 1` always suffices (`natDigitsF_spec`). -/
def natDigitsF : Nat → Nat → List Nat
  | 0, _ => []
  | f + 1, n => if n < 10 then [48 + n] else natDigitsF f (n / 10) ++ [48 + n % 10]

/-- Decimal digit bytes of a natural number, e.g. `natDigits 92 = [57, 50]`. -/
def natDigits (n : Nat) : List Nat := natDigitsF (n + 1) n

theorem takeDigits_exact (ds : List Nat) (b : Nat) (t : List Nat)
    (hds : ∀ d ∈ ds, isDigitByte d = true) (hb : isDigitByte b = false) :
    takeDigits (ds ++ b :: t) = (ds, b :: t) := by
  induction ds with
  | nil => simp [takeDigits, hb]
  | cons d ds ih =>
    have hd : isDigitByte d = true := hds d (by simp)
    have := ih (fun x hx => hds x (by simp [hx]))
    simp [takeDigits, hd, this]

theorem natDigitsF_foldl (f : Nat) : ∀ n, n < f → ∀ a : Nat,
    (natDigitsF f n).foldl (fun a d => 10 * a + (d - 48)) a =
      a * 10 ^ (natDigitsF f n).length + n := by
  induction f with
  | zero => intro n hn; omega
  | succ f ih =>
    intro n hn a
    by_cases h : n < 10
    · simp [natDigitsF, h, List.foldl]
      omega
    · have hdiv : n / 10 < f := by
        have h1 : n / 10 < n := Nat.div_lt_self (by omega) (by omega)
        omega
      simp only [natDigitsF, if_neg h, List.foldl_append, List.length_append,
        List.foldl_cons, List.foldl_nil, List.length_cons, List.length_nil]
      rw [ih (n / 10) hdiv a]
      have hmod : 10 * (n / 10) + n % 10 = n := by omega
      have : 48 + n % 10 - 48 = n % 10 := by omega
      rw [this, pow_succ]
      ring_nf
      omega

theorem digitsToNat_natDigits (n : Nat) : digitsToNat (natDigits n) = n := by
  have := natDigitsF_foldl (n + 1) n (by omega) 0
  simpa [digitsToNat, natDigits] using this

theorem natDigitsF_all_digits (f : Nat) : ∀ n, ∀ d ∈ natDigitsF f n, isDigitByte d = true := by
  induction f with
  | zero => intro n d hd; simp [natDigitsF] at hd
  | succ f ih =>
    intro n d hd
    by_cases h : n < 10
    · simp [natDigitsF, h] at hd
      simp [hd, isDigitByte]
      omega
    · simp only [natDigitsF, if_neg h, List.mem_append, List.mem_cons] at hd
      rcases hd with hd | hd
      · exact ih (n / 10) d hd
      · simp at hd
        have : n % 10 < 10 := Nat.mod_lt _ (by omega)
        simp [hd, isDigitByte]
        omega

theorem natDigits_all_digits (n : Nat) : ∀ d ∈ natDigits n, isDigitByte d = true :=
  natDigitsF_all_digits (n + 1) n

theorem natDigits_ne_nil (n : Nat) : natDigits n ≠ [] := by
  unfold natDigits natDigitsF
  by_cases h : n < 10 <;> simp [h]

theorem natDigits_head_digit (n : Nat) :
    ∃ d t, natDigits n = d :: t ∧ isDigitByte d = true := by
  cases hd : natDigits n with
  | nil => exact absurd hd (natDigits_ne_nil n)
  | cons d t =>
    refine ⟨d, t, rfl, ?_⟩
    exact natDigits_all_digits n d (by simp [hd])

theorem isDigitByte_bounds {d : Nat} (h : isDigitByte d = true) : 48 ≤ d ∧ d ≤ 57 := by
  simp [isDigitByte] at h
  omega

/-- Error taxonomy of the bencode layer, from `bencode/src/lib.rs` lines 9-18.
The `Utf8Error` payload of `InvalidUtf8` is dropped: the embedding only
records which error was raised. -/
inductive Error where
  | UnexpectedEof
  | InvalidSyntax
  | InvalidUtf8
  | ExpectedInteger
  | ExpectedString
  | ExpectedDict
  | UnknownField
deriving DecidableEq, Repr

/-- UTF-8 continuation byte test (`0x80..0xBF`). -/
def isContByte (b : Nat) : Bool := 128 ≤ b && b ≤ 191

/-- Modelled from the spec: `parse_str` "validates UTF-8" but the validation
code lives in the missing `bencode/src/deserialize.rs`; this is the standard
UTF-8 well-formedness table (as `core::str::from_utf8` checks it). -/
def validUtf8 : List Nat → Bool
  | [] => true
  | b :: rest =>
    if b ≤ 127 then validUtf8 rest
    else if 194 ≤ b && b ≤ 223 then
      match rest with
      | c1 :: r => isContByte c1 && validUtf8 r
      | [] => false
    else if b = 224 then
      match rest with
      | c1 :: c2 :: r => (160 ≤ c1 && c1 ≤ 191) && isContByte c2 && validUtf8 r
      | _ => false
    else if 225 ≤ b && b ≤ 236 then
      match rest with
      | c1 :: c2 :: r => isContByte c1 && isContByte c2 && validUtf8 r
      | _ => false
    else if b = 237 then
      match rest with
      | c1 :: c2 :: r => (128 ≤ c1 && c1 ≤ 159) && isContByte c2 && validUtf8 r
      | _ => false
    else if 238 ≤ b && b ≤ 239 then
      match rest with
      | c1 :: c2 :: r => isContByte c1 && isContByte c2 && validUtf8 r
      | _ => false
    else if b = 240 then
      match rest with
      | c1 :: c2 :: c3 :: r => (144 ≤ c1 && c1 ≤ 191) && isContByte c2 && isContByte c3 && validUtf8 r
      | _ => false
    else if 241 ≤ b && b ≤ 243 then
      match rest with
      | c1 :: c2 :: c3 :: r => isContByte c1 && isContByte c2 && isContByte c3 && validUtf8 r
      | _ => false
    else if b = 244 then
      match rest with
      | c1 :: c2 :: c3 :: r => (128 ≤ c1 && c1 ≤ 143) && isContByte c2 && isContByte c3 && validUtf8 r
      | _ => false
    else false

/-- Modelled from the spec: `expect_dict_start` "consumes the `d` marker;
fails with `ExpectedDict` if absent" (spec section 4.1; the implementation
file `bencode/src/deserialize.rs` is not in the source tree).  The parser
state is the not-yet-consumed byte suffix. -/
def expect_dict_start : List Nat → Except Error (List Nat)
  | 100 :: rest => .ok rest
  | _ => .error .ExpectedDict

/-- Modelled from the spec: `match_dict_end` "peeks for the `e` terminator;
consumes it and returns true if present, otherwise returns false without
advancing" (spec section 4.1). -/
def match_dict_end (input : List Nat) : Bool × List Nat :=
  if input.head? = some 101 then (true, input.tail) else (false, input)

/-- Modelled from the spec: `parse_raw_value` "returns the yet-undecoded
byte-string payload without UTF-8 validation" (spec section 4.1), i.e. it
reads a `<len>:<bytes>` token and hands back the raw bytes. -/
def parse_raw_value (input : List Nat) : Except Error (List Nat × List Nat) :=
  match takeDigits input with
  | ([], _) => .error (if input = [] then .UnexpectedEof else .ExpectedString)
  | (ds, rest) =>
    match rest with
    | 58 :: rest2 =>
      let len := digitsToNat ds
      if len ≤ rest2.length then .ok (rest2.take len, rest2.drop len)
      else .error .UnexpectedEof
    | _ => .error .ExpectedString

/-- Modelled from the spec: `parse_str` "reads a length-prefixed byte-string
(`<len>:<bytes>`), validates UTF-8, returns the borrowed text or fails with
`ExpectedString` / `InvalidUtf8` / `UnexpectedEof`" (spec section 4.1).
The returned text is kept as its byte list; the later `"interval"`/`"peers"`
dispatch compares byte lists, which agrees with Rust `&str` comparison. -/
def parse_str (input : List Nat) : Except Error (List Nat × List Nat) :=
  match parse_raw_value input with
  | .error e => .error e
  | .ok (s, rest) => if validUtf8 s then .ok (s, rest) else .error .InvalidUtf8

/-- Digit-run part of `parse_int`, after the `i` marker and optional sign. -/
def parse_int_digits (neg : Bool) (rest : List Nat) : Except Error (Int × List Nat) :=
  match takeDigits rest with
  | ([], _) => .error .ExpectedInteger
  | (ds, rest2) =>
    match rest2 with
    | 101 :: r => .ok ((if neg then -(digitsToNat ds : Int) else (digitsToNat ds : Int)), r)
    | _ => .error .ExpectedInteger

/-- Modelled from the spec: `parse_int` "reads a signed-integer token
(`i<digits>e`), fails with `ExpectedInteger` on malformed input"
(spec section 4.1).  The spec states no width bound, so the value is an
unbounded integer; the `as u32` truncation happens at the call site in
`tracker.rs`. -/
def parse_int : List Nat → Except Error (Int × List Nat)
  | 105 :: rest =>
    if rest.head? = some 45 then parse_int_digits true rest.tail
    else parse_int_digits false rest
  | _ => .error .ExpectedInteger

mutual

/-- Modelled from the spec: `skip_any` "consumes and discards the next
well-formed value of any bencode type (integer, string, list, or dict)
recursively" (spec section 4.1).  The Rust recursion is unbounded, so the
embedding takes an explicit fuel; `none` models a computation that did not
finish within the fuel. -/
def skipAnyF : Nat → List Nat → Option (Except Error (List Nat))
  | 0, _ => none
  | _ + 1, [] => some (.error .UnexpectedEof)
  | f + 1, b :: rest =>
    if b = 105 then
      match parse_int (b :: rest) with
      | .error e => some (.error e)
      | .ok (_, r) => some (.ok r)
    else if b = 108 then skipListF f rest
    else if b = 100 then skipDictF f rest
    else if isDigitByte b then
      match parse_raw_value (b :: rest) with
      | .error e => some (.error e)
      | .ok (_, r) => some (.ok r)
    else some (.error .InvalidSyntax)

/-- List-skipping loop of `skip_any`: discard elements until the `e` terminator. -/
def skipListF : Nat → List Nat → Option (Except Error (List Nat))
  | 0, _ => none
  | f + 1, input =>
    if input.head? = some 101 then some (.ok input.tail)
    else
      match skipAnyF f input with
      | none => none
      | some (.error e) => some (.error e)
      | some (.ok r) => skipListF f r

/-- Dict-skipping loop of `skip_any`: discard key/value pairs until `e`. -/
def skipDictF : Nat → List Nat → Option (Except Error (List Nat))
  | 0, _ => none
  | f + 1, input =>
    if input.head? = some 101 then some (.ok input.tail)
    else
      match parse_raw_value input with
      | .error e => some (.error e)
      | .ok (_, r) =>
        match skipAnyF f r with
        | none => none
        | some (.error e) => some (.error e)
        | some (.ok r2) => skipDictF f r2

end

/-- Abstract syntax of well-formed bencode values, used to quantify over
"valid bencoded dictionary" inputs.  Strings are raw byte lists (bencode
strings are binary-safe); dictionary keys are byte lists. -/
inductive BVal where
  | int (n : Int)
  | str (s : List Nat)
  | list (vs : List BVal)
  | dict (ps : List (List Nat × BVal))

/-- Bencode encoding of an integer payload (optional sign, then digits). -/
def intDigits (n : Int) : List Nat :=
  if n < 0 then 45 :: natDigits n.natAbs else natDigits n.toNat

/-- Bencode encoding of a byte string: `<len>:<bytes>`. -/
def encStr (s : List Nat) : List Nat := natDigits s.length ++ 58 :: s

mutual

/-- Bencode encoding of a value. -/
def encB : BVal → List Nat
  | .int n => 105 :: intDigits n ++ [101]
  | .str s => encStr s
  | .list vs => 108 :: encList vs ++ [101]
  | .dict ps => 100 :: encPairs ps ++ [101]

/-- Concatenated encodings of list elements. -/
def encList : List BVal → List Nat
  | [] => []
  | v :: vs => encB v ++ encList vs

/-- Concatenated encodings of dictionary key/value pairs. -/
def encPairs : List (List Nat × BVal) → List Nat
  | [] => []
  | (k, v) :: ps => encStr k ++ encB v ++ encPairs ps

end

/-- An IPv4 socket address as decoded from a compact peer record
(`core::net::SocketAddrV4` in `tracker.rs`). -/
structure SocketAddrV4 where
  a : Nat
  b : Nat
  c : Nat
  d : Nat
  port : Nat
deriving DecidableEq, Repr

/-- The decoded tracker response of `tracker.rs` lines 52-56: `interval` is a
`u32`, `peers` a `heapless::Vec<SocketAddrV4, 10>` (here a list that the
parser keeps at length at most 10). -/
structure TrackerResponse where
  interval : Nat
  peers : List SocketAddrV4
deriving DecidableEq, Repr

/-- Compact peer decoding of `tracker.rs` lines 94-101: `as_chunks::<6>` keeps
only the complete leading 6-byte chunks (the remainder is dropped), and each
chunk becomes the IPv4 address of its first four bytes with the big-endian
16-bit port of its last two bytes. -/
def peerChunks : List Nat → List SocketAddrV4
  | b0 :: b1 :: b2 :: b3 :: b4 :: b5 :: rest =>
    ⟨b0, b1, b2, b3, 256 * b4 + b5⟩ :: peerChunks rest
  | _ => []

/-- Rust's `as u32` truncating cast applied to the parsed integer
(`tracker.rs` line 89): the value modulo `2 ^ 32`. -/
def u32_cast (n : Int) : Nat := (n % 4294967296).toNat

/-- Outcome of `TrackerResponse::parse`: a decoded response, a typed bencode
error, or a Rust panic (the `heapless::Vec` `Extend` implementation panics
when a push exceeds the capacity). -/
inductive POut where
  | ok (r : TrackerResponse)
  | err (e : Error)
  | panic
deriving DecidableEq, Repr

/-- The `while !p.match_dict_end()` scanning loop of `TrackerResponse::parse`
(`tracker.rs` lines 84-107), with explicit fuel.  The `"peers"` arm models
`peers.extend(chunks.take(capacity))` for a `heapless::Vec` of capacity 10:
`take 10` limits the added records, and the extension panics if it would push
past capacity (heapless `Extend` is `push(..).ok().unwrap()`). -/
def parseLoopF : Nat → Nat → List SocketAddrV4 → List Nat → Option POut
  | 0, _, _, _ => none
  | f + 1, interval, peers, input =>
    match match_dict_end input with
    | (true, _) => some (.ok ⟨interval, peers⟩)
    | (false, input1) =>
      match parse_str input1 with
      | .error e => some (.err e)
      | .ok (key, rest) =>
        if key = strBytes "interval" then
          match parse_int rest with
          | .error e => some (.err e)
          | .ok (n, rest2) => parseLoopF f (u32_cast n) peers rest2
        else if key = strBytes "peers" then
          match parse_raw_value rest with
          | .error e => some (.err e)
          | .ok (s, rest2) =>
            let add := (peerChunks s).take 10
            if peers.length + add.length ≤ 10 then
              parseLoopF f interval (peers ++ add) rest2
            else some .panic
        else
          match skipAnyF f rest with
          | none => none
          | some (.error e) => some (.err e)
          | some (.ok rest2) => parseLoopF f interval peers rest2

/-- `TrackerResponse::parse` (`tracker.rs` lines 76-110): expect the dict
marker, then run the scanning loop.  The fuel `2 * input.length + 2` is large
enough for every input the theorems below consider. -/
def TrackerResponse.parse (input : List Nat) : Option POut :=
  match expect_dict_start input with
  | .error e => some (.err e)
  | .ok rest => parseLoopF (2 * input.length + 2) 0 [] rest

theorem parse_raw_value_enc (s r : List Nat) :
    parse_raw_value (encStr s ++ r) = .ok (s, r) := by
  obtain ⟨d, t, hdt, hd⟩ := natDigits_head_digit s.length
  have hall : ∀ x ∈ d :: t, isDigitByte x = true := by
    rw [← hdt]; exact natDigits_all_digits s.length
  have hval : digitsToNat (d :: t) = s.length := by rw [← hdt, digitsToNat_natDigits]
  have henc : encStr s ++ r = (d :: t) ++ 58 :: (s ++ r) := by
    simp [encStr, hdt]
  rw [henc, parse_raw_value, takeDigits_exact _ _ _ hall (by decide)]
  simp [hval, List.take_left, List.drop_left]

theorem parse_str_enc (k r : List Nat) (h : validUtf8 k = true) :
    parse_str (encStr k ++ r) = .ok (k, r) := by
  simp [parse_str, parse_raw_value_enc, h]

theorem parse_int_digits_enc (m : Nat) (neg : Bool) (r : List Nat) :
    parse_int_digits neg (natDigits m ++ 101 :: r) =
      .ok ((if neg then -(m : Int) else (m : Int)), r) := by
  obtain ⟨d, t, hdt, hd⟩ := natDigits_head_digit m
  have hall : ∀ x ∈ d :: t, isDigitByte x = true := by
    rw [← hdt]; exact natDigits_all_digits m
  have hval : digitsToNat (d :: t) = m := by rw [← hdt, digitsToNat_natDigits]
  rw [hdt, parse_int_digits, takeDigits_exact _ _ _ hall (by decide)]
  simp [hval]

theorem parse_int_encB (n : Int) (r : List Nat) :
    parse_int (encB (.int n) ++ r) = .ok (n, r) := by
  have henc : encB (.int n) ++ r = 105 :: (intDigits n ++ 101 :: r) := by
    simp [encB]
  rw [henc]
  by_cases hn : n < 0
  · have hneg : intDigits n ++ 101 :: r = 45 :: (natDigits n.natAbs ++ 101 :: r) := by
      simp [intDigits, hn]
    rw [parse_int, hneg]
    simp only [List.head?_cons, List.tail_cons, if_pos rfl, parse_int_digits_enc]
    rcases Int.natAbs_eq n with h | h
    · have hb : (0 : Int) ≤ (n.natAbs : Int) := Int.natCast_nonneg _
      omega
    · simp [← h]
      rw [abs_of_neg hn, neg_neg]
  · have hnd : intDigits n = natDigits n.toNat := by simp [intDigits, hn]
    obtain ⟨d, t, hdt, hd⟩ := natDigits_head_digit n.toNat
    have hb := isDigitByte_bounds hd
    have hd45 : d ≠ 45 := by omega
    have hshape : intDigits n ++ 101 :: r = d :: (t ++ 101 :: r) := by
      simp [hnd, hdt]
    have hback : d :: (t ++ 101 :: r) = natDigits n.toNat ++ 101 :: r := by
      simp [hdt]
    rw [parse_int, hshape]
    rw [if_neg (by simp [hd45])]
    rw [hback, parse_int_digits_enc]
    simp [Int.toNat_of_nonneg (not_lt.mp hn)]

theorem encB_cons (v : BVal) : ∃ b t, encB v = b :: t ∧ b ≠ 101 ∧ b ≠ 45 := by
  cases v with
  | int n =>
    exact ⟨105, intDigits n ++ [101], by simp [encB], by decide, by decide⟩
  | str s =>
    obtain ⟨d, t, hdt, hd⟩ := natDigits_head_digit s.length
    have hb := isDigitByte_bounds hd
    exact ⟨d, t ++ 58 :: s, by simp [encStr, encB, hdt], by omega, by omega⟩
  | list vs =>
    exact ⟨108, encList vs ++ [101], by simp [encB], by decide, by decide⟩
  | dict ps =>
    exact ⟨100, encPairs ps ++ [101], by simp [encB], by decide, by decide⟩

theorem encB_length_pos (v : BVal) : 1 ≤ (encB v).length := by
  obtain ⟨b, t, hbt, _⟩ := encB_cons v
  simp [hbt]

theorem encStr_length (s : List Nat) : (encStr s).length = (natDigits s.length).length + 1 + s.length := by
  simp [encStr]
  omega

theorem encStr_length_pos (s : List Nat) : 2 ≤ (encStr s).length := by
  have h := natDigits_ne_nil s.length
  have : 1 ≤ (natDigits s.length).length := by
    cases hd : natDigits s.length with
    | nil => exact absurd hd h
    | cons a t => simp
  rw [encStr_length]
  omega

theorem encStr_cons (s : List Nat) : ∃ d t, encStr s = d :: t ∧ isDigitByte d = true := by
  obtain ⟨d, t, hdt, hd⟩ := natDigits_head_digit s.length
  exact ⟨d, t ++ 58 :: s, by simp [encStr, hdt], hd⟩

mutual

theorem skipAnyF_enc : ∀ (v : BVal) (r : List Nat) (f : Nat),
    2 * (encB v).length ≤ f → skipAnyF f (encB v ++ r) = some (.ok r)
  | .int n, r, f, hf => by
    obtain ⟨f', rfl⟩ : ∃ f', f = f' + 1 :=
      ⟨f - 1, by have := encB_length_pos (BVal.int n); omega⟩
    have hshape : encB (BVal.int n) ++ r = 105 :: (intDigits n ++ 101 :: r) := by
      simp [encB]
    have hpi := parse_int_encB n r
    rw [hshape] at hpi ⊢
    simp [skipAnyF, hpi]
  | .str s, r, f, hf => by
    obtain ⟨d, t, hdt, hd⟩ := encStr_cons s
    have hb := isDigitByte_bounds hd
    obtain ⟨f', rfl⟩ : ∃ f', f = f' + 1 :=
      ⟨f - 1, by have := encB_length_pos (BVal.str s); omega⟩
    have hshape : encB (BVal.str s) ++ r = d :: (t ++ r) := by
      simp [encB, hdt]
    have hpr := parse_raw_value_enc s r
    have hback : encStr s ++ r = d :: (t ++ r) := by simp [hdt]
    rw [hback] at hpr
    have h105 : d ≠ 105 := by omega
    have h108 : d ≠ 108 := by omega
    have h100 : d ≠ 100 := by omega
    rw [hshape]
    simp [skipAnyF, hpr, h105, h108, h100, hd]
  | .list vs, r, f, hf => by
    obtain ⟨f', rfl⟩ : ∃ f', f = f' + 1 :=
      ⟨f - 1, by have := encB_length_pos (BVal.list vs); omega⟩
    have hlen : (encB (BVal.list vs)).length = (encList vs).length + 2 := by simp [encB]
    have hshape : encB (BVal.list vs) ++ r = 108 :: (encList vs ++ 101 :: r) := by
      simp [encB]
    have hrec : skipListF f' (encList vs ++ 101 :: r) = some (.ok r) :=
      skipListF_enc vs r f' (by omega)
    rw [hshape]
    simp [skipAnyF, hrec]
  | .dict ps, r, f, hf => by
    obtain ⟨f', rfl⟩ : ∃ f', f = f' + 1 :=
      ⟨f - 1, by have := encB_length_pos (BVal.dict ps); omega⟩
    have hlen : (encB (BVal.dict ps)).length = (encPairs ps).length + 2 := by simp [encB]
    have hshape : encB (BVal.dict ps) ++ r = 100 :: (encPairs ps ++ 101 :: r) := by
      simp [encB]
    have hrec : skipDictF f' (encPairs ps ++ 101 :: r) = some (.ok r) :=
      skipDictF_enc ps r f' (by omega)
    rw [hshape]
    simp [skipAnyF, hrec]

theorem skipListF_enc : ∀ (vs : List BVal) (r : List Nat) (f : Nat),
    2 * (encList vs).length + 1 ≤ f → skipListF f (encList vs ++ 101 :: r) = some (.ok r)
  | [], r, f, hf => by
    obtain ⟨f', rfl⟩ : ∃ f', f = f' + 1 := ⟨f - 1, by omega⟩
    simp [encList, skipListF]
  | v :: vs, r, f, hf => by
    obtain ⟨b, t, hbt, hb101, _⟩ := encB_cons v
    have hlenv := encB_length_pos v
    have hflen : 2 * ((encB v).length + (encList vs).length) + 1 ≤ f := by
      simpa [encList] using hf
    obtain ⟨f', rfl⟩ : ∃ f', f = f' + 1 := ⟨f - 1, by omega⟩
    have hshape : encList (v :: vs) ++ 101 :: r = encB v ++ (encList vs ++ 101 :: r) := by
      simp [encList]
    have hhead : (encB v ++ (encList vs ++ 101 :: r)).head? = some b := by
      simp [hbt]
    have hskip : skipAnyF f' (encB v ++ (encList vs ++ 101 :: r)) =
        some (.ok (encList vs ++ 101 :: r)) := skipAnyF_enc v _ f' (by omega)
    have hrec : skipListF f' (encList vs ++ 101 :: r) = some (.ok r) :=
      skipListF_enc vs r f' (by omega)
    rw [hshape]
    simp only [skipListF]
    rw [if_neg (by simp [hhead, hb101])]
    simp [hskip, hrec]

theorem skipDictF_enc : ∀ (ps : List (List Nat × BVal)) (r : List Nat) (f : Nat),
    2 * (encPairs ps).length + 1 ≤ f → skipDictF f (encPairs ps ++ 101 :: r) = some (.ok r)
  | [], r, f, hf => by
    obtain ⟨f', rfl⟩ : ∃ f', f = f' + 1 := ⟨f - 1, by omega⟩
    simp [encPairs, skipDictF]
  | (k, v) :: ps, r, f, hf => by
    obtain ⟨d, t, hdt, hd⟩ := encStr_cons k
    have hb := isDigitByte_bounds hd
    have hlenv := encB_length_pos v
    have hlenk := encStr_length_pos k
    have hflen : 2 * ((encStr k).length + ((encB v).length + (encPairs ps).length)) + 1 ≤ f := by
      simpa [encPairs] using hf
    obtain ⟨f', rfl⟩ : ∃ f', f = f' + 1 := ⟨f - 1, by omega⟩
    have hshape : encPairs ((k, v) :: ps) ++ 101 :: r =
        encStr k ++ (encB v ++ (encPairs ps ++ 101 :: r)) := by
      simp [encPairs]
    have hhead : (encStr k ++ (encB v ++ (encPairs ps ++ 101 :: r))).head? = some d := by
      simp [hdt]
    have hskip : skipAnyF f' (encB v ++ (encPairs ps ++ 101 :: r)) =
        some (.ok (encPairs ps ++ 101 :: r)) := skipAnyF_enc v _ f' (by omega)
    have hrec : skipDictF f' (encPairs ps ++ 101 :: r) = some (.ok r) :=
      skipDictF_enc ps r f' (by omega)
    rw [hshape]
    simp only [skipDictF]
    rw [if_neg (by simp [hhead]; omega)]
    rw [parse_raw_value_enc]
    simp [hskip, hrec]

end

/-- Effect of one recognized dictionary entry on the `(interval, peers)`
loop state of `TrackerResponse::parse`: an `"interval"` entry overwrites the
interval with the `as u32` cast of its integer, a `"peers"` entry appends up
to 10 decoded records, anything else is skipped. -/
def updTR (st : Nat × List SocketAddrV4) (e : List Nat × BVal) :
    Nat × List SocketAddrV4 :=
  if e.1 = strBytes "interval" then
    match e.2 with
    | .int n => (u32_cast n, st.2)
    | _ => st
  else if e.1 = strBytes "peers" then
    match e.2 with
    | .str s => (st.1, st.2 ++ (peerChunks s).take 10)
    | _ => st
  else st

/-- Loop state after scanning a list of dictionary entries. -/
def runEntries (st : Nat × List SocketAddrV4) (ps : List (List Nat × BVal)) :
    Nat × List SocketAddrV4 :=
  ps.foldl updTR st

/-- An entry the scanning loop accepts: its key is UTF-8 text, and the two
recognized keys carry values of the type the loop decodes. -/
def goodEntry (e : List Nat × BVal) : Prop :=
  validUtf8 e.1 = true ∧
  (e.1 = strBytes "interval" → ∃ n, e.2 = .int n) ∧
  (e.1 = strBytes "peers" → ∃ s, e.2 = .str s)

/-- Boolean test for entries keyed `"peers"`. -/
def isPeersE (e : List Nat × BVal) : Bool := e.1 = strBytes "peers"

theorem match_dict_end_ne (l : List Nat) (b : Nat) (h : l.head? = some b)
    (hb : b ≠ 101) : match_dict_end l = (false, l) := by
  rw [match_dict_end, if_neg (by simp [h, hb])]

theorem parseLoopF_enc (ps : List (List Nat × BVal)) :
    ∀ (i : Nat) (p : List SocketAddrV4) (rest : List Nat) (f : Nat),
    (∀ e ∈ ps, goodEntry e) →
    ps.countP isPeersE ≤ 1 →
    (1 ≤ ps.countP isPeersE → p = []) →
    2 * (encPairs ps).length + 1 ≤ f →
    parseLoopF f i p (encPairs ps ++ 101 :: rest) =
      some (.ok ⟨(runEntries (i, p) ps).1, (runEntries (i, p) ps).2⟩) := by
  induction ps with
  | nil =>
    intro i p rest f _ _ _ hf
    obtain ⟨f', rfl⟩ : ∃ f', f = f' + 1 := ⟨f - 1, by omega⟩
    simp [encPairs, parseLoopF, match_dict_end, runEntries]
  | cons e ps ih =>
    intro i p rest f hgood hcnt hpz hf
    obtain ⟨k, v⟩ := e
    obtain ⟨d, t, hdt, hd⟩ := encStr_cons k
    have hdb := isDigitByte_bounds hd
    have hlenv := encB_length_pos v
    have hlenk := encStr_length_pos k
    have hflen : 2 * ((encStr k).length + ((encB v).length + (encPairs ps).length)) + 1 ≤ f := by
      simpa [encPairs] using hf
    obtain ⟨f', rfl⟩ : ∃ f', f = f' + 1 := ⟨f - 1, by omega⟩
    have hshape : encPairs ((k, v) :: ps) ++ 101 :: rest =
        encStr k ++ (encB v ++ (encPairs ps ++ 101 :: rest)) := by
      simp [encPairs]
    have hmde : match_dict_end (encStr k ++ (encB v ++ (encPairs ps ++ 101 :: rest))) =
        (false, encStr k ++ (encB v ++ (encPairs ps ++ 101 :: rest))) :=
      match_dict_end_ne _ d (by simp [hdt]) (by omega)
    have hgk : goodEntry (k, v) := hgood (k, v) (by simp)
    have hps := parse_str_enc k (encB v ++ (encPairs ps ++ 101 :: rest)) hgk.1
    have hgoodtail : ∀ x ∈ ps, goodEntry x := fun x hx => hgood x (by simp [hx])
    rw [hshape]
    by_cases hki : k = strBytes "interval"
    · obtain ⟨n, rfl⟩ := hgk.2.1 hki
      have hpi := parse_int_encB n (encPairs ps ++ 101 :: rest)
      have hkp : ¬ isPeersE (k, BVal.int n) = true := by
        simp [isPeersE, hki]
        decide
      have hcnt' : ps.countP isPeersE ≤ 1 := by
        rw [List.countP_cons_of_neg _ _ hkp] at hcnt
        exact hcnt
      have hpz' : 1 ≤ ps.countP isPeersE → p = [] := fun h1 => by
        apply hpz
        rw [List.countP_cons_of_neg _ _ hkp]
        exact h1
      have hrec := ih (u32_cast n) p rest f' hgoodtail hcnt' hpz' (by omega)
      simp only [parseLoopF, hmde, hps, if_pos hki, hpi, hrec]
      have hupd : updTR (i, p) (k, BVal.int n) = (u32_cast n, p) := by
        simp [updTR, hki]
      simp [runEntries, hupd]
    · by_cases hkp : k = strBytes "peers"
      · obtain ⟨s, rfl⟩ := hgk.2.2 hkp
        have hprv := parse_raw_value_enc s (encPairs ps ++ 101 :: rest)
        have hbs : encB (BVal.str s) = encStr s := by simp [encB]
        have hpeersE : isPeersE (k, BVal.str s) = true := by simp [isPeersE, hkp]
        have hone : 1 ≤ ((k, BVal.str s) :: ps).countP isPeersE := by
          rw [List.countP_cons_of_pos _ _ hpeersE]
          omega
        have hp0 : p = [] := hpz hone
        have hcnt0 : ps.countP isPeersE = 0 := by
          rw [List.countP_cons_of_pos _ _ hpeersE] at hcnt
          omega
        have hrec := ih i ((peerChunks s).take 10) rest f' hgoodtail (by omega)
          (fun h1 => by omega) (by omega)
        subst hp0
        have hcap : ([] : List SocketAddrV4).length + ((peerChunks s).take 10).length ≤ 10 := by
          simp [List.length_take]
        rw [← hbs] at hprv
        simp only [parseLoopF, hmde, hps, if_neg hki, if_pos hkp, hprv]
        rw [if_pos (by simp)]
        have hupd : updTR (i, []) (k, BVal.str s) = (i, (peerChunks s).take 10) := by
          have hne : strBytes "peers" ≠ strBytes "interval" := by decide
          simp [updTR, hkp, hne]
        simp [runEntries, hupd] at hrec ⊢
        exact hrec
      · have hkpE : ¬ isPeersE (k, v) = true := by simp [isPeersE, hkp]
        have hskip : skipAnyF f' (encB v ++ (encPairs ps ++ 101 :: rest)) =
            some (.ok (encPairs ps ++ 101 :: rest)) := skipAnyF_enc v _ f' (by omega)
        have hcnt' : ps.countP isPeersE ≤ 1 := by
          rw [List.countP_cons_of_neg _ _ hkpE] at hcnt
          exact hcnt
        have hpz' : 1 ≤ ps.countP isPeersE → p = [] := fun h1 => by
          apply hpz
          rw [List.countP_cons_of_neg _ _ hkpE]
          exact h1
        have hrec := ih i p rest f' hgoodtail hcnt' hpz' (by omega)
        simp only [parseLoopF, hmde, hps, if_neg hki, if_neg hkp, hskip, hrec]
        have hupd : updTR (i, p) (k, v) = (i, p) := by
          cases v <;> simp [updTR, hki, hkp]
        simp [runEntries, hupd]

/-- `TrackerResponse::parse` on the encoding of a well-formed dictionary:
the result is `Ok` with the state obtained by scanning the entries in order. -/
theorem parse_encB_dict (ps : List (List Nat × BVal))
    (hgood : ∀ e ∈ ps, goodEntry e)
    (hcnt : ps.countP isPeersE ≤ 1) :
    TrackerResponse.parse (encB (.dict ps)) =
      some (.ok ⟨(runEntries (0, []) ps).1, (runEntries (0, []) ps).2⟩) := by
  have hshape : encB (.dict ps) = 100 :: (encPairs ps ++ 101 :: []) := by
    simp [encB]
  have hlen : (encB (.dict ps)).length = (encPairs ps).length + 2 := by
    simp [encB]
  rw [TrackerResponse.parse, hshape]
  have hds : expect_dict_start (100 :: (encPairs ps ++ 101 :: [])) =
      .ok (encPairs ps ++ 101 :: []) := by simp [expect_dict_start]
  rw [hds]
  exact parseLoopF_enc ps 0 [] [] _ hgood hcnt (fun _ => rfl) (by simp; omega)

theorem updTR_fst (st : Nat × List SocketAddrV4) (e : List Nat × BVal)
    (h : e.1 ≠ strBytes "interval") : (updTR st e).1 = st.1 := by
  obtain ⟨k, v⟩ := e
  have hne : strBytes "peers" ≠ strBytes "interval" := by decide
  by_cases hp : k = strBytes "peers"
  · cases v <;> simp [updTR, h, hp, hne]
  · cases v <;> simp [updTR, h, hp]

theorem updTR_snd (st : Nat × List SocketAddrV4) (e : List Nat × BVal)
    (h : e.1 ≠ strBytes "peers") : (updTR st e).2 = st.2 := by
  obtain ⟨k, v⟩ := e
  have hne : strBytes "interval" ≠ strBytes "peers" := by decide
  by_cases hi : k = strBytes "interval"
  · cases v <;> simp [updTR, h, hi, hne]
  · cases v <;> simp [updTR, h, hi]

theorem runEntries_fst_frame (ps : List (List Nat × BVal))
    (st : Nat × List SocketAddrV4) (h : ∀ e ∈ ps, e.1 ≠ strBytes "interval") :
    (runEntries st ps).1 = st.1 := by
  induction ps generalizing st with
  | nil => rfl
  | cons e ps ih =>
    rw [runEntries, List.foldl_cons, ← runEntries]
    rw [ih _ (fun x hx => h x (by simp [hx]))]
    exact updTR_fst st e (h e (by simp))

theorem runEntries_snd_frame (ps : List (List Nat × BVal))
    (st : Nat × List SocketAddrV4) (h : ∀ e ∈ ps, e.1 ≠ strBytes "peers") :
    (runEntries st ps).2 = st.2 := by
  induction ps generalizing st with
  | nil => rfl
  | cons e ps ih =>
    rw [runEntries, List.foldl_cons, ← runEntries]
    rw [ih _ (fun x hx => h x (by simp [hx]))]
    exact updTR_snd st e (h e (by simp))

theorem key_ne_of_nodup (ps : List (List Nat × BVal)) (e x : List Nat × BVal)
    (hnd : ((e :: ps).map Prod.fst).Nodup) (hx : x ∈ ps) : x.1 ≠ e.1 := by
  intro hcontra
  have h1 : e.1 ∉ ps.map Prod.fst := by
    simp only [List.map_cons, List.nodup_cons] at hnd
    exact hnd.1
  exact h1 (by exact List.mem_map.mpr ⟨x, hx, hcontra⟩)

theorem runEntries_interval (ps : List (List Nat × BVal)) (n : Int) :
    ∀ st : Nat × List SocketAddrV4,
    (strBytes "interval", BVal.int n) ∈ ps →
    ((ps.map Prod.fst).Nodup) →
    (runEntries st ps).1 = u32_cast n := by
  induction ps with
  | nil => intro st hmem _; cases hmem
  | cons e ps ih =>
    intro st hmem hnd
    rcases List.mem_cons.mp hmem with he | he
    · rw [runEntries, List.foldl_cons, ← runEntries]
      rw [runEntries_fst_frame ps _ ?frame]
      · rw [← he]
        simp [updTR]
      case frame =>
        intro x hx
        have := key_ne_of_nodup ps e x hnd hx
        rw [← he] at this
        exact this
    · have hne : e.1 ≠ strBytes "interval" := by
        have := key_ne_of_nodup ps e _ hnd he
        exact fun hc => this (by rw [hc])
      rw [runEntries, List.foldl_cons, ← runEntries]
      exact ih _ he (by simp only [List.map_cons, List.nodup_cons] at hnd; exact hnd.2)

theorem runEntries_peers (ps : List (List Nat × BVal)) (s : List Nat) :
    ∀ st : Nat × List SocketAddrV4,
    (strBytes "peers", BVal.str s) ∈ ps →
    ((ps.map Prod.fst).Nodup) →
    st.2 = [] →
    (runEntries st ps).2 = (peerChunks s).take 10 := by
  induction ps with
  | nil => intro st hmem _ _; cases hmem
  | cons e ps ih =>
    intro st hmem hnd hst
    rcases List.mem_cons.mp hmem with he | he
    · rw [runEntries, List.foldl_cons, ← runEntries]
      rw [runEntries_snd_frame ps _ ?frame]
      · rw [← he]
        have hne : strBytes "peers" ≠ strBytes "interval" := by decide
        simp [updTR, hne, hst]
      case frame =>
        intro x hx
        have := key_ne_of_nodup ps e x hnd hx
        rw [← he] at this
        exact this
    · have hne : e.1 ≠ strBytes "peers" := by
        have := key_ne_of_nodup ps e _ hnd he
        exact fun hc => this (by rw [hc])
      rw [runEntries, List.foldl_cons, ← runEntries]
      refine ih _ he (by simp only [List.map_cons, List.nodup_cons] at hnd; exact hnd.2) ?_
      rw [updTR_snd st e hne, hst]

theorem countP_peers_of_nodup (ps : List (List Nat × BVal))
    (hnd : (ps.map Prod.fst).Nodup) : ps.countP isPeersE ≤ 1 := by
  induction ps with
  | nil => simp
  | cons e ps ih =>
    have hnd' : (ps.map Prod.fst).Nodup := by
      simp only [List.map_cons, List.nodup_cons] at hnd
      exact hnd.2
    by_cases hp : isPeersE e = true
    · have hz : ps.countP isPeersE = 0 := by
        rw [List.countP_eq_zero]
        intro x hx
        have hne := key_ne_of_nodup ps e x hnd hx
        simp only [isPeersE, decide_eq_true_eq] at hp
        simp only [isPeersE, decide_eq_true_eq]
        rw [← hp]
        exact hne
      rw [List.countP_cons_of_pos _ _ hp, hz]
    · rw [List.countP_cons_of_neg _ _ hp]
      exact ih hnd'

theorem peerChunks_length : ∀ s : List Nat, (peerChunks s).length = s.length / 6
  | b0 :: b1 :: b2 :: b3 :: b4 :: b5 :: rest => by
    rw [peerChunks]
    simp only [List.length_cons]
    rw [peerChunks_length rest]
    omega
  | [] => by simp [peerChunks]
  | [_] => by simp [peerChunks]
  | [_, _] => by simp [peerChunks]
  | [_, _, _] => by simp [peerChunks]
  | [_, _, _, _] => by simp [peerChunks]
  | [_, _, _, _, _] => by simp [peerChunks]

theorem getD_cons6 (b0 b1 b2 b3 b4 b5 : Nat) (rest : List Nat) (m : Nat) :
    (b0 :: b1 :: b2 :: b3 :: b4 :: b5 :: rest).getD (m + 6) 0 = rest.getD m 0 := by
  rw [show m + 6 = (m + 5) + 1 by omega, List.getD_cons_succ,
      show m + 5 = (m + 4) + 1 by omega, List.getD_cons_succ,
      show m + 4 = (m + 3) + 1 by omega, List.getD_cons_succ,
      show m + 3 = (m + 2) + 1 by omega, List.getD_cons_succ,
      show m + 2 = (m + 1) + 1 by omega, List.getD_cons_succ,
      List.getD_cons_succ]

theorem peerChunks_getElem? : ∀ (s : List Nat) (i : Nat), 6 * i + 6 ≤ s.length →
    (peerChunks s)[i]? = some ⟨s.getD (6 * i) 0, s.getD (6 * i + 1) 0, s.getD (6 * i + 2) 0,
      s.getD (6 * i + 3) 0, 256 * s.getD (6 * i + 4) 0 + s.getD (6 * i + 5) 0⟩
  | b0 :: b1 :: b2 :: b3 :: b4 :: b5 :: rest, 0, _ => by
    rw [peerChunks]
    simp [List.getD_cons_zero, List.getD_cons_succ]
  | b0 :: b1 :: b2 :: b3 :: b4 :: b5 :: rest, i + 1, h => by
    rw [peerChunks, List.getElem?_cons_succ]
    have hlen : 6 * i + 6 ≤ rest.length := by
      simp only [List.length_cons] at h
      omega
    rw [peerChunks_getElem? rest i hlen]
    have e0 : 6 * (i + 1) = 6 * i + 6 := by ring
    rw [e0]
    rw [show 6 * i + 6 + 1 = (6 * i + 1) + 6 by omega,
        show 6 * i + 6 + 2 = (6 * i + 2) + 6 by omega,
        show 6 * i + 6 + 3 = (6 * i + 3) + 6 by omega,
        show 6 * i + 6 + 4 = (6 * i + 4) + 6 by omega,
        show 6 * i + 6 + 5 = (6 * i + 5) + 6 by omega]
    rw [getD_cons6, getD_cons6, getD_cons6, getD_cons6, getD_cons6, getD_cons6]
  | [], i, h => by simp at h
  | [_], i, h => by simp at h
  | [_, _], i, h => by simp at h
  | [_, _, _], i, h => by simp at h
  | [_, _, _, _], i, h => by simp at h
  | [_, _, _, _, _], i, h => by simp at h

theorem peerChunks_short : ∀ l : List Nat, l.length < 6 → peerChunks l = []
  | b0 :: b1 :: b2 :: b3 :: b4 :: b5 :: rest, h => by simp at h; omega
  | [], _ => by simp [peerChunks]
  | [_], _ => by simp [peerChunks]
  | [_, _], _ => by simp [peerChunks]
  | [_, _, _], _ => by simp [peerChunks]
  | [_, _, _, _], _ => by simp [peerChunks]
  | [_, _, _, _, _], _ => by simp [peerChunks]

theorem peerChunks_append_short : ∀ (t u : List Nat), t.length % 6 = 0 → u.length < 6 →
    peerChunks (t ++ u) = peerChunks t
  | b0 :: b1 :: b2 :: b3 :: b4 :: b5 :: rest, u, ht, hu => by
    have ht' : rest.length % 6 = 0 := by
      simp only [List.length_cons] at ht
      omega
    simp only [List.cons_append]
    rw [peerChunks, peerChunks, peerChunks_append_short rest u ht' hu]
  | [], u, _, hu => by
    simp only [List.nil_append]
    rw [peerChunks_short u hu]
    simp [peerChunks]
  | [_], _, ht, _ => by simp at ht
  | [_, _], _, ht, _ => by simp at ht
  | [_, _, _], _, ht, _ => by simp at ht
  | [_, _, _, _], _, ht, _ => by simp at ht
  | [_, _, _, _, _], _, ht, _ => by simp at ht

/-- The leading complete 6-byte records determine the decoded peers: the
`length mod 6` trailing bytes never contribute. -/
theorem peerChunks_take_complete (s : List Nat) :
    peerChunks (s.take (6 * (s.length / 6))) = peerChunks s := by
  set m := 6 * (s.length / 6) with hm
  have hms : m ≤ s.length := by omega
  have hsplit : s.take m ++ s.drop m = s := List.take_append_drop m s
  have hlt : (s.take m).length = m := by
    simp [List.length_take]
    omega
  have hmod : (s.take m).length % 6 = 0 := by
    rw [hlt]
    omega
  have hdrop : (s.drop m).length < 6 := by
    simp [List.length_drop]
    omega
  calc peerChunks (s.take m) = peerChunks (s.take m ++ s.drop m) :=
        (peerChunks_append_short _ _ hmod hdrop).symm
    _ = peerChunks s := by rw [hsplit]

theorem goodEntry_of (ps : List (List Nat × BVal))
    (hvalid : ∀ e ∈ ps, validUtf8 e.1 = true)
    (hint : ∀ e ∈ ps, e.1 = strBytes "interval" → ∃ m, e.2 = .int m)
    (hpeers : ∀ e ∈ ps, e.1 = strBytes "peers" → ∃ t, e.2 = .str t) :
    ∀ e ∈ ps, goodEntry e :=
  fun e he => ⟨hvalid e he, hint e he, hpeers e he⟩

theorem typed_of_mem (ps : List (List Nat × BVal)) (k : List Nat) (v : BVal)
    (hnd : (ps.map Prod.fst).Nodup) (hmem : (k, v) ∈ ps) :
    ∀ e ∈ ps, e.1 = k → e.2 = v := by
  intro e he hk
  have heq : e = (k, v) := List.inj_on_of_nodup_map hnd he hmem (by simp [hk])
  rw [heq]

/-- C1 (amended): for every bencoded dictionary containing the key
`"interval"` mapped to an integer `n` and the key `"peers"` mapped to a byte
string of length `6 * kk` (other keys, in any order, with any well-formed
values), `TrackerResponse::parse` returns `Ok` with `interval` equal to
`n` reduced modulo `2 ^ 32` (Rust's `as u32` cast; equal to `n` itself
whenever `0 ≤ n < 2 ^ 32`) and with exactly `min kk 10` peers, where the
`i`-th peer is the IPv4 socket address of payload bytes `6i..6i+3` with the
big-endian 16-bit port of bytes `6i+4..6i+5`; excess records beyond the
10th never cause an error. -/
theorem c1_tracker_response_parse (ps : List (List Nat × BVal)) (n : Int)
    (s : List Nat) (kk : Nat)
    (hint : (strBytes "interval", BVal.int n) ∈ ps)
    (hpeers : (strBytes "peers", BVal.str s) ∈ ps)
    (hnd : (ps.map Prod.fst).Nodup)
    (hvalid : ∀ e ∈ ps, validUtf8 e.1 = true)
    (hlen : s.length = 6 * kk) :
    ∃ peers, TrackerResponse.parse (encB (.dict ps)) =
        some (.ok ⟨u32_cast n, peers⟩) ∧
      peers.length = min kk 10 ∧
      ∀ i, i < min kk 10 → peers[i]? =
        some ⟨s.getD (6 * i) 0, s.getD (6 * i + 1) 0, s.getD (6 * i + 2) 0,
          s.getD (6 * i + 3) 0, 256 * s.getD (6 * i + 4) 0 + s.getD (6 * i + 5) 0⟩ := by
  have htyped_int : ∀ e ∈ ps, e.1 = strBytes "interval" → ∃ m, e.2 = BVal.int m := by
    intro e he hk
    exact ⟨n, typed_of_mem ps _ _ hnd hint e he hk⟩
  have htyped_str : ∀ e ∈ ps, e.1 = strBytes "peers" → ∃ t, e.2 = BVal.str t := by
    intro e he hk
    exact ⟨s, typed_of_mem ps _ _ hnd hpeers e he hk⟩
  have hgood := goodEntry_of ps hvalid htyped_int htyped_str
  have hcnt := countP_peers_of_nodup ps hnd
  refine ⟨(peerChunks s).take 10, ?_, ?_, ?_⟩
  · rw [parse_encB_dict ps hgood hcnt,
      runEntries_interval ps n (0, []) hint hnd,
      runEntries_peers ps s (0, []) hpeers hnd rfl]
  · rw [List.length_take, peerChunks_length, hlen]
    have h6 : 6 * kk / 6 = kk := by omega
    rw [h6]
    omega
  · intro i hi
    rw [List.getElem?_take, if_pos (by omega)]
    exact peerChunks_getElem? s i (by omega)

/-- C1 counterexample: the claim as frozen asserts `interval` equals the
dictionary's integer `n` for every integer; at `n = 2 ^ 32 = 4294967296`
(with an empty `peers` string) the code's `as u32` cast yields `0 ≠ n`,
so the unrestricted equality is false. -/
theorem c1_counterexample_interval_cast :
    TrackerResponse.parse (encB (.dict
      [(strBytes "interval", .int 4294967296), (strBytes "peers", .str [])])) =
        some (.ok ⟨0, []⟩) ∧ (0 : Int) ≠ 4294967296 := by
  constructor
  · have henc : encB (.dict
        [(strBytes "interval", .int 4294967296), (strBytes "peers", .str [])]) =
        strBytes "d8:intervali4294967296e5:peers0:e" := by
      simp [encB, encPairs, encStr, intDigits, natDigits, natDigitsF, strBytes]
    rw [henc]
    decide
  · decide

/-- C1 witness: the amended theorem applied to a concrete dictionary with
`interval = 1800`, a 12-byte (two-record) `peers` payload, and an extra
skipped key. -/
theorem c1_witness :
    ∃ peers, TrackerResponse.parse (encB (.dict
      [(strBytes "interval", .int 1800),
       (strBytes "peers", .str (List.replicate 12 9)),
       (strBytes "extra", .list [.int 1, .str [0, 200]])])) =
        some (.ok ⟨u32_cast 1800, peers⟩) ∧
      peers.length = min 2 10 ∧
      ∀ i, i < min 2 10 → peers[i]? =
        some ⟨(List.replicate 12 9).getD (6 * i) 0,
          (List.replicate 12 9).getD (6 * i + 1) 0,
          (List.replicate 12 9).getD (6 * i + 2) 0,
          (List.replicate 12 9).getD (6 * i + 3) 0,
          256 * (List.replicate 12 9).getD (6 * i + 4) 0 +
            (List.replicate 12 9).getD (6 * i + 5) 0⟩ :=
  c1_tracker_response_parse _ 1800 (List.replicate 12 9) 2
    (by simp) (by simp) (by decide) (by decide) (by decide)

/-- C9: if the `"peers"` value of a tracker response dictionary is a byte
string whose length is not a multiple of 6, `TrackerResponse::parse` does
not report an error: it returns `Ok`, the trailing `length mod 6` bytes are
silently ignored (the decoded peers coincide with those of the longest
complete-6-byte-record whole multiple), and only the `length / 6` complete
leading records (up to 10) are decoded. -/
theorem c9_trailing_peer_bytes_ignored (ps : List (List Nat × BVal))
    (s : List Nat)
    (hpeers : (strBytes "peers", BVal.str s) ∈ ps)
    (hnd : (ps.map Prod.fst).Nodup)
    (hvalid : ∀ e ∈ ps, validUtf8 e.1 = true)
    (hinterval : ∀ e ∈ ps, e.1 = strBytes "interval" → ∃ m, e.2 = BVal.int m)
    (hmod : s.length % 6 ≠ 0) :
    ∃ itv peers, TrackerResponse.parse (encB (.dict ps)) =
        some (.ok ⟨itv, peers⟩) ∧
      peers = (peerChunks (s.take (6 * (s.length / 6)))).take 10 ∧
      peers.length = min (s.length / 6) 10 := by
  have htyped_str : ∀ e ∈ ps, e.1 = strBytes "peers" → ∃ t, e.2 = BVal.str t := by
    intro e he hk
    exact ⟨s, typed_of_mem ps _ _ hnd hpeers e he hk⟩
  have hgood := goodEntry_of ps hvalid hinterval htyped_str
  have hcnt := countP_peers_of_nodup ps hnd
  refine ⟨(runEntries (0, []) ps).1, (peerChunks s).take 10, ?_, ?_, ?_⟩
  · rw [parse_encB_dict ps hgood hcnt,
      runEntries_peers ps s (0, []) hpeers hnd rfl]
  · rw [peerChunks_take_complete]
  · rw [List.length_take, peerChunks_length]
    omega

/-- C9 witness: a dictionary with `interval = 60` and a 7-byte `peers`
payload (one complete record plus one stray byte). -/
theorem c9_witness :
    ∃ itv peers, TrackerResponse.parse (encB (.dict
      [(strBytes "interval", .int 60),
       (strBytes "peers", .str [1, 2, 3, 4, 5, 6, 7])])) =
        some (.ok ⟨itv, peers⟩) ∧
      peers = (peerChunks (([1, 2, 3, 4, 5, 6, 7] : List Nat).take
        (6 * (([1, 2, 3, 4, 5, 6, 7] : List Nat).length / 6)))).take 10 ∧
      peers.length = min (([1, 2, 3, 4, 5, 6, 7] : List Nat).length / 6) 10 :=
  c9_trailing_peer_bytes_ignored _ [1, 2, 3, 4, 5, 6, 7]
    (by simp) (by decide) (by decide)
    (by
      intro e he hk
      simp only [List.mem_cons, List.not_mem_nil, or_false] at he
      rcases he with he | he
      · exact ⟨60, by rw [he]⟩
      · rw [he] at hk
        exact absurd hk (by decide))
    (by decide)

/-- C7: the claim says `TrackerResponse::parse` never panics on any input;
the code panics on this well-formed bencoded dictionary that repeats the
`"peers"` key: the first `extend` fills the `heapless::Vec<_, 10>` with 10
records, and the second `extend` (whose iterator `take(capacity)` still
yields one record) hits a full vector, whose `Extend` implementation is
`push(..).ok().unwrap()`. -/
theorem c7_parse_panics_on_repeated_peers :
    TrackerResponse.parse (strBytes "d5:peers60:" ++ List.replicate 60 7 ++
      strBytes "5:peers6:" ++ List.replicate 6 7 ++ [101]) = some .panic := by
  decide

instance {e a : Type} [DecidableEq e] [DecidableEq a] : DecidableEq (Except e a) :=
  fun x y =>
  match x, y with
  | .ok u, .ok v =>
    if h : u = v then isTrue (by rw [h]) else isFalse (fun hc => h (by injection hc))
  | .error u, .error v =>
    if h : u = v then isTrue (by rw [h]) else isFalse (fun hc => h (by injection hc))
  | .ok _, .error _ => isFalse (fun hc => Except.noConfusion hc)
  | .error _, .ok _ => isFalse (fun hc => Except.noConfusion hc)

/-- Total UTF-8 byte length of a character list; models Rust's `str::len`
(heapless `String` capacities are byte counts). -/
def utf8Len (l : List Char) : Nat := (l.map Char.utf8Size).sum

/-- Does `s` start with `pat`?  (Rust `str::starts_with`, used to model
`split_once`'s substring search.) -/
def startsWith : List Char → List Char → Bool
  | _, [] => true
  | [], _ :: _ => false
  | c :: cs, p :: ps => c = p && startsWith cs ps

/-- Rust `str::split_once(sep)`: split at the first occurrence of the
substring `sep`, returning the parts before and after it. -/
def splitOnce (sep : List Char) : List Char → Option (List Char × List Char)
  | [] => none
  | c :: rest =>
    if startsWith (c :: rest) sep then some ([], (c :: rest).drop sep.length)
    else
      match splitOnce sep rest with
      | some (a, b) => some (c :: a, b)
      | none => none

/-- Rust `str::find(char)`: index of the first occurrence. -/
def findChar (c : Char) : List Char → Option Nat
  | [] => none
  | x :: rest => if x = c then some 0 else (findChar c rest).map (· + 1)

/-- Rust `str::parse::<u16>()`: optional leading `+`, then at least one
decimal digit, value below `2 ^ 16`; anything else is a parse error. -/
def parseU16 (s : List Char) : Option Nat :=
  let digs := match s with
    | '+' :: rest => rest
    | _ => s
  if digs = [] then none
  else if digs.all Char.isDigit then
    let v := digs.foldl (fun a c => 10 * a + (c.toNat - 48)) 0
    if v < 65536 then some v else none
  else none

/-- The heapless `String<512>` query store of `SimpleUrl`
(`net.rs` lines 130-134 and 170-176): `push_str` on a fresh string is
all-or-nothing, so text longer than 512 bytes leaves the empty string. -/
def storeQuery (q : List Char) : List Char := if utf8Len q ≤ 512 then q else []

/-- `SimpleUrl` (`net.rs` lines 86-93): parsed view of an announce URL.
The query is the owned, capacity-512 stored copy. -/
structure SimpleUrl where
  scheme : List Char
  host : List Char
  port : Option Nat
  path : List Char
  query : Option (List Char)
deriving DecidableEq, Repr

/-- `SimpleUrl::parse` (`net.rs` lines 97-143): split scheme on `"://"`,
split host-port from path-query at the first `/` (or `?` when no `/`),
split host from port at the first `:` (the port must parse as `u16`),
normalize an empty path to `/`, and store the query if present. -/
def SimpleUrl.parse (url : List Char) : Except String SimpleUrl :=
  match splitOnce (String.toList "://") url with
  | none => .error "Invalid URL: missing scheme"
  | some (scheme, rest) =>
    let hp_pq : List Char × List Char :=
      match findChar '/' rest with
      | some pos => (rest.take pos, rest.drop pos)
      | none =>
        match findChar '?' rest with
        | some pos => (rest.take pos, rest.drop pos)
        | none => (rest, [])
    match (match splitOnce [':'] hp_pq.1 with
      | some (h, p) =>
        match parseU16 p with
        | some prt => Except.ok (h, some prt)
        | none => Except.error "Invalid port number"
      | none => Except.ok (hp_pq.1, none) :
        Except String (List Char × Option Nat)) with
    | .error e => .error e
    | .ok (host, prt) =>
      let path_query : List Char × Option (List Char) :=
        if hp_pq.2 = [] then (String.toList "/", none)
        else match findChar '?' hp_pq.2 with
          | some pos =>
            let p := hp_pq.2.take pos
            (if p = [] then String.toList "/" else p, some (hp_pq.2.drop (pos + 1)))
          | none => (hp_pq.2, none)
      .ok ⟨scheme, host, prt, path_query.1, path_query.2.map storeQuery⟩

/-- `SimpleUrl::host_str` (`net.rs` lines 146-148). -/
def SimpleUrl.host_str (u : SimpleUrl) : Option (List Char) := some u.host

/-- `SimpleUrl::port` (`net.rs` lines 151-157): the parsed port, or the
scheme default (`http` → 80, `https` → 443). -/
def SimpleUrl.port' (u : SimpleUrl) : Option Nat :=
  match u.port with
  | some p => some p
  | none =>
    if u.scheme = String.toList "http" then some 80
    else if u.scheme = String.toList "https" then some 443
    else none

/-- `SimpleUrl::set_query` (`net.rs` lines 170-176): replace the stored
query in place (same capacity-512 store as at parse time). -/
def SimpleUrl.set_query (u : SimpleUrl) (q : Option (List Char)) : SimpleUrl :=
  { u with query := q.map storeQuery }

/-- C5: the SimpleUrl parser round-trip table: a bare `http` URL gets host
`example.com`, default port 80, path `/`, no query; `https` defaults to port
443; an explicit port is returned; a query without a path leaves path `/`;
non-numeric port digits fail with the invalid-port error; a missing `"://"`
separator fails with the missing-scheme error. -/
theorem c5_simple_url_round_trip :
    (SimpleUrl.parse (String.toList "http://example.com")).map
        (fun u => (u.host_str, u.port', u.path, u.query)) =
      .ok (some (String.toList "example.com"), some 80, String.toList "/", none) ∧
    (SimpleUrl.parse (String.toList "https://secure.example.com")).map
        (fun u => u.port') = .ok (some 443) ∧
    (SimpleUrl.parse (String.toList "http://example.com:8080")).map
        (fun u => u.port') = .ok (some 8080) ∧
    (SimpleUrl.parse (String.toList "http://example.com?key=value&foo=bar")).map
        (fun u => (u.path, u.query)) =
      .ok (String.toList "/", some (String.toList "key=value&foo=bar")) ∧
    SimpleUrl.parse (String.toList "http://example.com:invalid") =
      .error "Invalid port number" ∧
    SimpleUrl.parse (String.toList "example.com") =
      .error "Invalid URL: missing scheme" := by
  refine ⟨?_, ?_, ?_, ?_, ?_, ?_⟩ <;> decide

/-- C8: for every successfully parsed URL with no query and every query
text that fits the 512-byte store, setting and then clearing the query
yields a state with `query` equal to `None` that is observably equal (via
`host_str`, `port`, `path`, `query`) to the freshly parsed state. -/
theorem c8_set_query_round_trip (s : List Char) (u : SimpleUrl) (q : List Char)
    (hparse : SimpleUrl.parse s = .ok u)
    (hnoq : u.query = none)
    (hfit : utf8Len q ≤ 512) :
    ((u.set_query (some q)).set_query none).query = none ∧
    ((u.set_query (some q)).set_query none).host_str = u.host_str ∧
    ((u.set_query (some q)).set_query none).port' = u.port' ∧
    ((u.set_query (some q)).set_query none).path = u.path ∧
    ((u.set_query (some q)).set_query none).query = u.query := by
  refine ⟨rfl, rfl, rfl, rfl, ?_⟩
  rw [hnoq]
  rfl

/-- C8 witness: the round trip at `http://example.com/path` with the query
`new=query`. -/
theorem c8_witness :
    (((SimpleUrl.mk (String.toList "http") (String.toList "example.com") none
        (String.toList "/path") none).set_query
          (some (String.toList "new=query"))).set_query none).query = none ∧
    (((SimpleUrl.mk (String.toList "http") (String.toList "example.com") none
        (String.toList "/path") none).set_query
          (some (String.toList "new=query"))).set_query none).path =
      (SimpleUrl.mk (String.toList "http") (String.toList "example.com") none
        (String.toList "/path") none).path := by
  have h := c8_set_query_round_trip (String.toList "http://example.com/path")
    (SimpleUrl.mk (String.toList "http") (String.toList "example.com") none
      (String.toList "/path") none)
    (String.toList "new=query") (by decide) rfl (by decide)
  exact ⟨h.1, h.2.2.2.1⟩

theorem findChar_replicate (c a : Char) (h : ¬ a = c) (n : Nat) :
    findChar c (List.replicate n a) = none := by
  induction n with
  | zero => rfl
  | succ n ih => simp [List.replicate_succ, findChar, h, ih]

theorem utf8Len_replicate_a (n : Nat) : utf8Len (List.replicate n 'a') = n := by
  induction n with
  | zero => rfl
  | succ n ih =>
    have hsz : Char.utf8Size 'a' = 1 := by decide
    simp only [List.replicate_succ, utf8Len, List.map_cons, List.sum_cons] at ih ⊢
    rw [hsz, ih]
    omega

/-- C10: the query lives in a fixed 512-byte heapless string.  First
conjunct: `set_query` with text longer than 512 bytes neither fails nor
panics, it silently stores the empty string, so `query()` returns
`Some("")`.  Second conjunct: parsing a URL whose query part exceeds 512
bytes likewise yields a parsed URL whose stored query is the empty
string. -/
theorem c10_query_capacity_clamp :
    (∀ (u : SimpleUrl) (q : List Char), 512 < utf8Len q →
      (u.set_query (some q)).query = some []) ∧
    (∀ n : Nat, 512 < n →
      SimpleUrl.parse
          ('h' :: 't' :: 't' :: 'p' :: ':' :: '/' :: '/' :: 'h' :: '?' ::
            List.replicate n 'a') =
        .ok ⟨['h', 't', 't', 'p'], ['h'], none, ['/'], some []⟩) := by
  constructor
  · intro u q hq
    simp [SimpleUrl.set_query, storeQuery]
    omega
  · intro n hn
    have hsep : String.toList "://" = [':', '/', '/'] := rfl
    have h1 : splitOnce (String.toList "://")
        ('h' :: 't' :: 't' :: 'p' :: ':' :: '/' :: '/' :: 'h' :: '?' ::
          List.replicate n 'a') =
        some (['h', 't', 't', 'p'], 'h' :: '?' :: List.replicate n 'a') := by
      rw [hsep]
      simp [splitOnce, startsWith]
    have h2 : findChar '/' ('h' :: '?' :: List.replicate n 'a') = none := by
      simp [findChar, findChar_replicate '/' 'a' (by decide)]
    have h3 : findChar '?' ('h' :: '?' :: List.replicate n 'a') = some 1 := by
      simp [findChar]
    have h4 : splitOnce [':'] ['h'] = none := by
      simp [splitOnce, startsWith]
    have h5 : findChar '?' ('?' :: List.replicate n 'a') = some 0 := by
      simp [findChar]
    have hq : storeQuery (List.replicate n 'a') = [] := by
      rw [storeQuery, utf8Len_replicate_a, if_neg (by omega)]
    simp only [SimpleUrl.parse, h1, h2, h3, h4, h5]
    simp [h4, h5, hq]

/-- C10 witness: a 513-byte query is clamped to the empty string, both via
`set_query` and at parse time. -/
theorem c10_witness :
    ((SimpleUrl.mk [] [] none [] none).set_query
        (some (List.replicate 513 'a'))).query = some [] ∧
    SimpleUrl.parse
        ('h' :: 't' :: 't' :: 'p' :: ':' :: '/' :: '/' :: 'h' :: '?' ::
          List.replicate 513 'a') =
      .ok ⟨['h', 't', 't', 'p'], ['h'], none, ['/'], some []⟩ :=
  ⟨c10_query_capacity_clamp.1 (SimpleUrl.mk [] [] none [] none)
      (List.replicate 513 'a') (by rw [utf8Len_replicate_a]; omega),
    c10_query_capacity_clamp.2 513 (by omega)⟩

/-- Uppercase hexadecimal digit for a value below 16, as Rust's `{:02X}`
formatting produces it. -/
def hexDigitU (n : Nat) : Char :=
  if n < 10 then Char.ofNat (48 + n) else Char.ofNat (55 + n)

/-- Concatenation of the images of a byte list. -/
def concatMapC (f : Nat → List Char) : List Nat → List Char
  | [] => []
  | b :: t => f b ++ concatMapC f t

/-- `percent_encode` (`net.rs` lines 293-299): for each byte write `%` and
its two-digit uppercase hex into a `heapless::String<60>`.  A `write!` that
would overflow the 60-character capacity fails and the `unwrap` panics;
`none` models that panic (it cannot happen for 20-byte inputs). -/
def percent_encode (bytes : List Nat) : Option (List Char) :=
  if 3 * bytes.length ≤ 60 then
    some (concatMapC (fun b => ['%', hexDigitU (b / 16), hexDigitU (b % 16)]) bytes)
  else none

/-- `TrackerRequest` (`tracker.rs` lines 6-23). -/
structure TrackerRequest where
  info_hash : List Nat
  peer_id : List Nat
  port : Nat
  uploaded : Nat
  downloaded : Nat
  left : Nat
  compact : Nat
deriving DecidableEq, Repr

/-- `TrackerRequest::new` (`tracker.rs` lines 26-36): `uploaded` and
`downloaded` start at zero and `compact` is always 1. -/
def TrackerRequest.new (info_hash peer_id : List Nat) (port left : Nat) :
    TrackerRequest :=
  ⟨info_hash, peer_id, port, 0, 0, left, 1⟩

/-- Rust's decimal `Display` of an unsigned integer. -/
def natRepr (n : Nat) : List Char := (Nat.repr n).toList

/-- `TrackerRequest::to_url_encoded` (`tracker.rs` lines 38-49): the exact
`write!` sequence building the announce query string.  `none` models the
panic inside `percent_encode` for oversized inputs. -/
def TrackerRequest.to_url_encoded (r : TrackerRequest) : Option (List Char) :=
  match percent_encode r.info_hash, percent_encode r.peer_id with
  | some ih, some pid =>
    some ((String.toList "info_hash=") ++ ih ++
      (String.toList "&peer_id=") ++ pid ++
      (String.toList "&port=") ++ natRepr r.port ++
      (String.toList "&uploaded=") ++ natRepr r.uploaded ++
      (String.toList "&downloaded=") ++ natRepr r.downloaded ++
      (String.toList "&left=") ++ natRepr r.left ++
      (String.toList "&compact=") ++ natRepr r.compact)
  | _, _ => none

/-- Mapping of lowercase hex letters to uppercase. -/
def charUpper (c : Char) : Char :=
  if 'a' ≤ c ∧ c ≤ 'z' then Char.ofNat (c.toNat - 32) else c

/-- The claim's byte encoder, phrased independently of the source: `%`
followed by the uppercase two-digit (zero-padded) hexadecimal of the
byte. -/
def encSpec (b : Nat) : List Char :=
  let ds := Nat.toDigits 16 b
  '%' :: (List.replicate (2 - ds.length) '0' ++ ds).map charUpper

set_option maxRecDepth 4000 in
theorem hexPair_eq_encSpec :
    ∀ b < 256, ['%', hexDigitU (b / 16), hexDigitU (b % 16)] = encSpec b := by
  decide

theorem concatMapC_congr (f g : Nat → List Char) (l : List Nat)
    (h : ∀ b ∈ l, f b = g b) : concatMapC f l = concatMapC g l := by
  induction l with
  | nil => rfl
  | cons b t ih =>
    rw [concatMapC, concatMapC, h b (by simp), ih (fun x hx => h x (by simp [hx]))]

theorem concatMapC_length_encSpec (l : List Nat) (h : ∀ b ∈ l, b < 256) :
    (concatMapC encSpec l).length = 3 * l.length := by
  induction l with
  | nil => rfl
  | cons b t ih =>
    have hb := h b (by simp)
    have h3 : (encSpec b).length = 3 := by
      rw [← hexPair_eq_encSpec b hb]
      rfl
    rw [concatMapC, List.length_append, h3, ih (fun x hx => h x (by simp [hx]))]
    simp
    omega

/-- C2: for 20-byte `info_hash` and `peer_id` (all byte values allowed),
16-bit port and 32-bit left, `TrackerRequest::new(..).to_url_encoded()` is
exactly `info_hash=` ++ enc(info_hash) ++ `&peer_id=` ++ enc(peer_id) ++
`&port=` ++ decimal(port) ++ `&uploaded=0&downloaded=0&left=` ++
decimal(left) ++ `&compact=1`, where `enc` writes every byte as `%` plus
its uppercase two-digit hex (`encSpec`), making enc of a 20-byte array a
fixed 60-character string. -/
theorem c2_to_url_encoded_exact (ih pid : List Nat) (p l : Nat)
    (hih : ih.length = 20) (hpid : pid.length = 20)
    (hihb : ∀ b ∈ ih, b < 256) (hpidb : ∀ b ∈ pid, b < 256)
    (hp : p < 65536) (hl : l < 4294967296) :
    (TrackerRequest.new ih pid p l).to_url_encoded =
      some ((String.toList "info_hash=") ++ concatMapC encSpec ih ++
        (String.toList "&peer_id=") ++ concatMapC encSpec pid ++
        (String.toList "&port=") ++ natRepr p ++
        (String.toList "&uploaded=0&downloaded=0&left=") ++ natRepr l ++
        (String.toList "&compact=1")) ∧
    (concatMapC encSpec ih).length = 60 := by
  constructor
  · have hpe1 : percent_encode ih = some (concatMapC encSpec ih) := by
      rw [percent_encode, if_pos (by omega)]
      exact congrArg some
        (concatMapC_congr _ _ ih (fun b hb => hexPair_eq_encSpec b (hihb b hb)))
    have hpe2 : percent_encode pid = some (concatMapC encSpec pid) := by
      rw [percent_encode, if_pos (by omega)]
      exact congrArg some
        (concatMapC_congr _ _ pid (fun b hb => hexPair_eq_encSpec b (hpidb b hb)))
    have hz : natRepr 0 = ['0'] := rfl
    have ho : natRepr 1 = ['1'] := rfl
    have hfold : ∀ R : List Char,
        (String.toList "&uploaded=") ++ (['0'] ++ ((String.toList "&downloaded=") ++
          (['0'] ++ ((String.toList "&left=") ++ R)))) =
        (String.toList "&uploaded=0&downloaded=0&left=") ++ R := by
      intro R
      have hbase : (String.toList "&uploaded=") ++ ['0'] ++
          (String.toList "&downloaded=") ++ ['0'] ++ (String.toList "&left=") =
          String.toList "&uploaded=0&downloaded=0&left=" := by decide
      calc (String.toList "&uploaded=") ++ (['0'] ++ ((String.toList "&downloaded=") ++
            (['0'] ++ ((String.toList "&left=") ++ R))))
          = ((String.toList "&uploaded=") ++ ['0'] ++ (String.toList "&downloaded=") ++
            ['0'] ++ (String.toList "&left=")) ++ R := by simp [List.append_assoc]
        _ = (String.toList "&uploaded=0&downloaded=0&left=") ++ R := by rw [hbase]
    have hcp : (String.toList "&compact=") ++ ['1'] = String.toList "&compact=1" := by
      decide
    simp only [TrackerRequest.to_url_encoded, TrackerRequest.new, hpe1, hpe2]
    simp only [List.append_assoc, hz, ho]
    rw [hfold, hcp]
  · rw [concatMapC_length_encSpec ih hihb, hih]

/-- C2 witness: the encoding at `info_hash = [0]*20`, `peer_id = [1]*20`,
`port = 6881`, `left = 1000`. -/
theorem c2_witness :
    (TrackerRequest.new (List.replicate 20 0) (List.replicate 20 1)
        6881 1000).to_url_encoded =
      some ((String.toList "info_hash=") ++ concatMapC encSpec (List.replicate 20 0) ++
        (String.toList "&peer_id=") ++ concatMapC encSpec (List.replicate 20 1) ++
        (String.toList "&port=") ++ natRepr 6881 ++
        (String.toList "&uploaded=0&downloaded=0&left=") ++ natRepr 1000 ++
        (String.toList "&compact=1")) ∧
    (concatMapC encSpec (List.replicate 20 0)).length = 60 :=
  c2_to_url_encoded_exact (List.replicate 20 0) (List.replicate 20 1) 6881 1000
    (by decide) (by decide) (by decide) (by decide) (by decide) (by decide)

/-- Index of the first occurrence of the byte sequence `\r\n\r\n`, i.e.
the model of `response.windows(4).position(|w| w == b"\r\n\r\n")` used by
`http_header_end_pos`. -/
def findSeq4 : List Nat → Option Nat
  | [] => none
  | b :: rest =>
    if (b :: rest).take 4 = [13, 10, 13, 10] then some 0
    else (findSeq4 rest).map (· + 1)

/-- `http_header_end_pos` (`net.rs` lines 284-291): four past the first
`\r\n\r\n`, or 0 when the terminator is absent (whole response is body). -/
def http_header_end_pos (response : List Nat) : Nat :=
  match findSeq4 response with
  | some pos => pos + 4
  | none => 0

/-- Rust `slice::copy_within(s..n, 0)`: the bytes at positions `s..n` move
to the front; positions from `n - s` on keep their old contents. -/
def copy_within (buf : List Nat) (s n : Nat) : List Nat :=
  (buf.drop s).take (n - s) ++ buf.drop (n - s)

/-- The tail of `make_tracker_request` (`net.rs` lines 215-218): find the
body start in the `bytes_written`-byte prefix, shift the body to the front
of the buffer in place, and return the body length. -/
def strip_http_body (rx_buf : List Nat) (bytes_written : Nat) : Nat × List Nat :=
  let body_start := http_header_end_pos (rx_buf.take bytes_written)
  (bytes_written - body_start, copy_within rx_buf body_start bytes_written)

/-- The four bytes at offset `i` are `\r\n\r\n`. -/
def crlfAt (l : List Nat) (i : Nat) : Prop := (l.drop i).take 4 = [13, 10, 13, 10]

theorem findSeq4_none_spec (l : List Nat) (h : findSeq4 l = none) :
    ∀ j, ¬ crlfAt l j := by
  induction l with
  | nil =>
    intro j hj
    rw [crlfAt, List.drop_nil] at hj
    simp at hj
  | cons b rest ih =>
    rw [findSeq4] at h
    intro j hj
    by_cases h0 : (b :: rest).take 4 = [13, 10, 13, 10]
    · rw [if_pos h0] at h
      cases h
    · rw [if_neg h0] at h
      cases j with
      | zero => exact h0 hj
      | succ j =>
        have hrest : findSeq4 rest = none := by
          cases hr : findSeq4 rest with
          | none => rfl
          | some i => rw [hr] at h; simp at h
        exact ih hrest j hj

theorem findSeq4_some_spec (l : List Nat) (i : Nat) (h : findSeq4 l = some i) :
    crlfAt l i ∧ ∀ j, crlfAt l j → i ≤ j := by
  induction l generalizing i with
  | nil => rw [findSeq4] at h; cases h
  | cons b rest ih =>
    rw [findSeq4] at h
    by_cases h0 : (b :: rest).take 4 = [13, 10, 13, 10]
    · rw [if_pos h0] at h
      injection h with h
      subst h
      exact ⟨h0, fun j _ => Nat.zero_le j⟩
    · rw [if_neg h0] at h
      cases hr : findSeq4 rest with
      | none => rw [hr] at h; cases h
      | some i' =>
        rw [hr] at h
        simp at h
        subst h
        obtain ⟨hc, hmin⟩ := ih i' hr
        constructor
        · exact hc
        · intro j hj
          cases j with
          | zero => exact absurd hj h0
          | succ j => exact Nat.succ_le_succ (hmin j hj)

theorem crlfAt_length (l : List Nat) (i : Nat) (h : crlfAt l i) : i + 4 ≤ l.length := by
  rw [crlfAt] at h
  have h4 : ((l.drop i).take 4).length = 4 := by rw [h]; rfl
  rw [List.length_take, List.length_drop] at h4
  omega

/-- C6: for every buffer and byte count `n` within it, the body-shift step
of `make_tracker_request` returns `n - s` and afterwards the first `n - s`
bytes of the buffer are exactly the former bytes at positions `s..n`,
where `s` is 4 plus the offset of the first `\r\n\r\n` in the first `n`
bytes when one occurs, and `s = 0` (whole response treated as body)
otherwise. -/
theorem c6_http_body_shift (buf : List Nat) (n : Nat) (hn : n ≤ buf.length) :
    ∃ s, (strip_http_body buf n).1 = n - s ∧
      (strip_http_body buf n).2.take (n - s) = (buf.take n).drop s ∧
      ((4 ≤ s ∧ crlfAt (buf.take n) (s - 4) ∧
          ∀ j, crlfAt (buf.take n) j → s - 4 ≤ j) ∨
        (s = 0 ∧ ∀ j, ¬ crlfAt (buf.take n) j)) := by
  refine ⟨http_header_end_pos (buf.take n), rfl, ?_, ?_⟩
  · have hs : http_header_end_pos (buf.take n) ≤ n := by
      cases hf : findSeq4 (buf.take n) with
      | none =>
        rw [http_header_end_pos, hf]
        exact Nat.zero_le n
      | some i =>
        rw [http_header_end_pos, hf]
        have hc := (findSeq4_some_spec _ i hf).1
        have hl4 := crlfAt_length _ i hc
        rw [List.length_take] at hl4
        show i + 4 ≤ n
        omega
    rw [strip_http_body, copy_within]
    have hlen1 : ((buf.drop (http_header_end_pos (buf.take n))).take
        (n - http_header_end_pos (buf.take n))).length =
        n - http_header_end_pos (buf.take n) := by
      rw [List.length_take, List.length_drop]
      omega
    rw [List.take_left' hlen1, List.drop_take]
  · cases hf : findSeq4 (buf.take n) with
    | none =>
      refine Or.inr ⟨?_, findSeq4_none_spec _ hf⟩
      rw [http_header_end_pos, hf]
    | some i =>
      obtain ⟨hc, hmin⟩ := findSeq4_some_spec _ i hf
      have hs4 : http_header_end_pos (buf.take n) = i + 4 := by
        rw [http_header_end_pos, hf]
      rw [hs4]
      exact Or.inl ⟨by omega, by simpa using hc, by simpa using hmin⟩

/-- C6 witness: a concrete HTTP response with a 13-byte header block in a
32-byte buffer. -/
theorem c6_witness :
    ∃ s, (strip_http_body (strBytes "HTTP/1.1 200\r\n\r\nd8:intervali0ee") 31).1 =
        31 - s ∧
      (strip_http_body (strBytes "HTTP/1.1 200\r\n\r\nd8:intervali0ee") 31).2.take
          (31 - s) =
        ((strBytes "HTTP/1.1 200\r\n\r\nd8:intervali0ee").take 33).drop s ∧
      ((4 ≤ s ∧ crlfAt ((strBytes "HTTP/1.1 200\r\n\r\nd8:intervali0ee").take 33)
            (s - 4) ∧
          ∀ j, crlfAt ((strBytes "HTTP/1.1 200\r\n\r\nd8:intervali0ee").take 33) j →
            s - 4 ≤ j) ∨
        (s = 0 ∧
          ∀ j, ¬ crlfAt ((strBytes "HTTP/1.1 200\r\n\r\nd8:intervali0ee").take 33) j)) :=
  c6_http_body_shift (strBytes "HTTP/1.1 200\r\n\r\nd8:intervali0ee") 31 (by decide)

/-- Modelled from the spec: `MetaInfoFile` is produced by the metainfo
parser in `core/metainfo.rs`, which is not in the source tree; per spec
section 3 it is `{ announce: text, info: { length: unsigned 32-bit },
info_hash: InfoHash }`. -/
structure MetaInfoFile where
  announce : List Char
  info_hash : List Nat
  length : Nat

/-- A DNS answer: an IPv4 address or some IPv6 address (whose value the
orchestrator never inspects). -/
inductive IpAddr where
  | v4 (a b c d : Nat)
  | v6
deriving DecidableEq, Repr

/-- `BitTorrenterError` (`lib.rs` lines 166-178), with the collaborator
error payloads abstracted to numeric codes. -/
inductive BitTorrenterError where
  | DnsError (e : Nat)
  | TcpError (e : Nat)
  | FsError (e : Nat)
deriving DecidableEq, Repr

/-- One announce cycle's collaborator behaviour: the outcomes of the DNS
query, the connect, the request write, the flush, and the read (the bytes
the transport deposits). -/
structure NetBehavior where
  dns : Except Nat IpAddr
  connect : Except Nat Unit
  writeAll : Except Nat Unit
  flush : Except Nat Unit
  readData : Except Nat (List Nat)

/-- Outcome of a `make_tracker_request` run: byte count plus final receive
buffer, a tagged error, or a Rust panic with its message. -/
inductive RunResult where
  | ok (n : Nat) (rx_buf : List Nat)
  | err (e : BitTorrenterError)
  | panic (msg : String)
deriving DecidableEq, Repr

/-- The HTTP request text (`net.rs` lines 260-271):
`GET {path}?{query} HTTP/1.1`, `Host:`, `Connection: close`, blank line. -/
def http_request_string (path query host : List Char) : List Char :=
  (String.toList "GET ") ++ path ++ ('?' :: query) ++
  (String.toList " HTTP/1.1") ++ [Char.ofNat 13, Char.ofNat 10] ++
  (String.toList "Host: ") ++ host ++ [Char.ofNat 13, Char.ofNat 10] ++
  (String.toList "Connection: close") ++ [Char.ofNat 13, Char.ofNat 10] ++
  [Char.ofNat 13, Char.ofNat 10]

/-- `BitTorrenter::make_http_request` (`net.rs` lines 225-281): resolve the
host (an IPv6 answer hits `unreachable!`), connect with the owned buffers,
build the request in a `heapless::String<512>` (`write!(..).unwrap()`
panics when it does not fit; the query is read back with
`url.query().expect(..)`), send, flush, and read into `rx_buf`. -/
def make_http_request (nb : NetBehavior) (url : SimpleUrl) (rx_buf : List Nat) :
    RunResult :=
  let host := url.host_str.getD []
  match nb.dns with
  | .error e => .err (.DnsError e)
  | .ok .v6 => .panic "IPv6 not supported in this application, we only use IPv4 trackers"
  | .ok (.v4 _ _ _ _) =>
    match nb.connect with
    | .error e => .err (.TcpError e)
    | .ok _ =>
      match url.query with
      | none => .panic "We set them when url-encoding the tracker-request"
      | some q =>
        if 512 < utf8Len (http_request_string url.path q host) then
          .panic "request exceeds the 512-byte heapless request string"
        else
          match nb.writeAll with
          | .error e => .err (.TcpError e)
          | .ok _ =>
            match nb.flush with
            | .error e => .err (.TcpError e)
            | .ok _ =>
              match nb.readData with
              | .error e => .err (.TcpError e)
              | .ok data =>
                let n := min data.length rx_buf.length
                .ok n (data.take n ++ rx_buf.drop n)

/-- `BitTorrenter::make_tracker_request` (`net.rs` lines 199-219): parse
the announce URL (`expect` panics on failure), build and attach the
percent-encoded query, run the HTTP exchange, then strip the HTTP header
and shift the body to the front of the buffer. -/
def make_tracker_request (nb : NetBehavior) (meta : MetaInfoFile)
    (peer_id : List Nat) (prt : Nat) (rx_buf : List Nat) : RunResult :=
  match SimpleUrl.parse meta.announce with
  | .error _ => .panic "Could not parse URL"
  | .ok url =>
    match (TrackerRequest.new meta.info_hash peer_id prt meta.length).to_url_encoded with
    | none => .panic "percent_encode output exceeds its 60-character capacity"
    | some query =>
      match make_http_request nb (url.set_query (some query)) rx_buf with
      | .ok bytes_written buf1 =>
        .ok (strip_http_body buf1 bytes_written).1 (strip_http_body buf1 bytes_written).2
      | r => r

/-- C3 counterexample: the claim as frozen says `make_tracker_request`
never panics, for every metadata value including an unparseable announce
string; with announce `example.com` (no `://`) and fully well-behaved
collaborators the call panics with `Could not parse URL`
(`metadata.announce` is fed to `SimpleUrl::parse(..).expect(..)`). -/
theorem c3_counterexample_announce_panic :
    make_tracker_request
      ⟨.ok (.v4 127 0 0 1), .ok (), .ok (), .ok (), .ok []⟩
      ⟨String.toList "example.com", List.replicate 20 0, 92063⟩
      (List.replicate 20 0) 6881 [] = .panic "Could not parse URL" := by
  decide

/-- C3 (amended): whenever the announce URL parses, the info hash and peer
id are 20 bytes, a successful DNS answer is IPv4, and the built request
fits the 512-byte request buffer, `make_tracker_request` returns `Ok` or
one of the tagged errors (`DnsError`/`TcpError`) for every behaviour of
the collaborators; an unparseable announce URL instead panics the
process. -/
theorem c3_tagged_error_or_ok (nb : NetBehavior) (meta : MetaInfoFile)
    (peer_id : List Nat) (prt : Nat) (rx_buf : List Nat) (u : SimpleUrl)
    (hparse : SimpleUrl.parse meta.announce = .ok u)
    (hih : meta.info_hash.length = 20) (hpid : peer_id.length = 20)
    (hdns : nb.dns ≠ .ok .v6)
    (hfit : ∀ q,
      (TrackerRequest.new meta.info_hash peer_id prt meta.length).to_url_encoded =
        some q →
      utf8Len (http_request_string u.path (storeQuery q) u.host) ≤ 512) :
    (∃ n buf, make_tracker_request nb meta peer_id prt rx_buf = .ok n buf) ∨
    (∃ e, make_tracker_request nb meta peer_id prt rx_buf = .err e) := by
  have hpe1 : percent_encode meta.info_hash =
      some (concatMapC (fun b => ['%', hexDigitU (b / 16), hexDigitU (b % 16)])
        meta.info_hash) := by
    rw [percent_encode, if_pos (by omega)]
  have hpe2 : percent_encode peer_id =
      some (concatMapC (fun b => ['%', hexDigitU (b / 16), hexDigitU (b % 16)])
        peer_id) := by
    rw [percent_encode, if_pos (by omega)]
  obtain ⟨q, hq⟩ : ∃ q,
      (TrackerRequest.new meta.info_hash peer_id prt meta.length).to_url_encoded =
        some q := by
    simp only [TrackerRequest.to_url_encoded, TrackerRequest.new, hpe1, hpe2]
    exact ⟨_, rfl⟩
  have hfitq := hfit q hq
  simp only [make_tracker_request, hparse, hq]
  simp only [make_http_request, SimpleUrl.set_query, Option.map_some']
  cases hd : nb.dns with
  | error e => exact Or.inr ⟨.DnsError e, rfl⟩
  | ok ip =>
    cases ip with
    | v6 => exact absurd hd hdns
    | v4 a b c d =>
      cases hc : nb.connect with
      | error e => exact Or.inr ⟨.TcpError e, rfl⟩
      | ok _ =>
        rw [if_neg (by simp [SimpleUrl.host_str] at hfitq ⊢; omega)]
        cases hw : nb.writeAll with
        | error e => exact Or.inr ⟨.TcpError e, rfl⟩
        | ok _ =>
          cases hf : nb.flush with
          | error e => exact Or.inr ⟨.TcpError e, rfl⟩
          | ok _ =>
            cases hr : nb.readData with
            | error e => exact Or.inr ⟨.TcpError e, rfl⟩
            | ok data => exact Or.inl ⟨_, _, rfl⟩

set_option maxRecDepth 100000 in
/-- C3 witness: a full successful cycle against concrete well-behaved
collaborators and a parseable announce URL. -/
theorem c3_witness :
    (∃ n buf, make_tracker_request
      ⟨.ok (.v4 127 0 0 1), .ok (), .ok (), .ok (),
        .ok (strBytes "HTTP/1.1 200\r\n\r\nde")⟩
      ⟨String.toList "http://t.example/announce", List.replicate 20 0, 1000⟩
      (List.replicate 20 1) 6881 (List.replicate 64 0) = .ok n buf) ∨
    (∃ e, make_tracker_request
      ⟨.ok (.v4 127 0 0 1), .ok (), .ok (), .ok (),
        .ok (strBytes "HTTP/1.1 200\r\n\r\nde")⟩
      ⟨String.toList "http://t.example/announce", List.replicate 20 0, 1000⟩
      (List.replicate 20 1) 6881 (List.replicate 64 0) = .err e) := by
  apply c3_tagged_error_or_ok _ _ _ _ _
    (SimpleUrl.mk (String.toList "http") (String.toList "t.example") none
      (String.toList "/announce") none)
    (by decide) (by decide) (by decide) (by decide)
  intro q hq
  have hsome : (TrackerRequest.new
      (MetaInfoFile.mk (String.toList "http://t.example/announce")
        (List.replicate 20 0) 1000).info_hash
      (List.replicate 20 1) 6881
      (MetaInfoFile.mk (String.toList "http://t.example/announce")
        (List.replicate 20 0) 1000).length).to_url_encoded =
      some ((TrackerRequest.new
        (MetaInfoFile.mk (String.toList "http://t.example/announce")
          (List.replicate 20 0) 1000).info_hash
        (List.replicate 20 1) 6881
        (MetaInfoFile.mk (String.toList "http://t.example/announce")
          (List.replicate 20 0) 1000).length).to_url_encoded.getD []) := by
    decide
  rw [hsome] at hq
  injection hq with hq
  subst hq
  decide

/-- One entry of the `torrents` directory as the filesystem collaborator
reports it to `iterate_dir_lfn`: the optional long filename given to the
closure, the directory entry's short name (opaque id for `dir.name`), and
the file's contents. -/
structure DirEntry where
  lfn : Option (List Char)
  shortName : Nat
  contents : List Nat
deriving DecidableEq, Repr

/-- State of the filesystem collaborator for one `get_torrent_from_file`
call: whether the `torrents` directory exists, whether directory iteration
fails, and the entries reported. -/
structure FsState where
  hasTorrentsDir : Bool
  iterateFails : Bool
  entries : List DirEntry
deriving DecidableEq, Repr

/-- Outcome of `get_torrent_from_file`: the optional torrent bytes, or a
Rust panic with its message. -/
inductive FsOut where
  | ok (r : Option (List Nat))
  | panic (msg : String)
deriving DecidableEq, Repr

/-- Rust `str::ends_with("torrent")`. -/
def endsWithTorrent (name : List Char) : Bool :=
  startsWith name.reverse (String.toList "torrent").reverse

/-- The `iterate_dir_lfn` closure of `get_torrent_from_file`
(`torrent_retrieval.rs` lines 21-34) folded over the entries.  On a
matching entry the code runs `file_name.replace(dir.name.clone())
.expect("we checked that it is uninitialized")`; `Option::replace` returns
the PREVIOUS value, which the `file_name.is_none()` guard has just
established to be `None`, so the `expect` panics (modelled as `.error`)
whenever a matching entry is found. -/
def iterLoop : List DirEntry → Option Nat → Except String (Option Nat)
  | [], acc => .ok acc
  | e :: rest, acc =>
    match e.lfn with
    | some name =>
      if endsWithTorrent name && acc.isNone then
        .error "we checked that it is uninitialized"
      else iterLoop rest acc
    | none => iterLoop rest acc

/-- `FileSystem::get_torrent_from_file` (`torrent_retrieval.rs` lines
12-55): open the `torrents` directory (`expect` panics when absent),
iterate it with the long-filename closure (`expect` panics when iteration
fails), then open and read the remembered file, or report `None` when no
entry matched. -/
def get_torrent_from_file (st : FsState) : FsOut :=
  if !st.hasTorrentsDir then .panic "'torrents' directory not found."
  else if st.iterateFails then .panic "Couldn't iterate dir"
  else
    match iterLoop st.entries none with
    | .error msg => .panic msg
    | .ok (some short) =>
      match st.entries.find? (fun e => e.shortName = short) with
      | some e => .ok (some e.contents)
      | none => .panic "we just found the file with this name"
    | .ok none => .ok none

/-- C4: the claim says `get_torrent_from_file` returns `Some` of the first
`*torrent` file's bytes and never panics; evaluating the code on a
filesystem whose `torrents` directory contains `a.torrent` shows it panics
instead: `Option::replace` on the (guaranteed `None`) `file_name` returns
`None`, and the `expect("we checked that it is uninitialized")` fires the
first time a matching file is found.  (With no matching entry the function
does return `None` without panicking.) -/
theorem c4_get_torrent_panics_when_found :
    get_torrent_from_file
        ⟨true, false, [⟨some (String.toList "a.torrent"), 1, [1, 2, 3]⟩]⟩ =
      .panic "we checked that it is uninitialized" ∧
    get_torrent_from_file
        ⟨true, false, [⟨some (String.toList "notes.txt"), 1, [1, 2, 3]⟩]⟩ =
      .ok none := by
  constructor <;> decide

end Minitorrent
